import Mathlib

/-!
Verification of the path-containment and filesystem-view core of
`src/web_upload.py` (a Flask file-upload and directory-browser server).

The embedding models POSIX path strings as `List Char`, the filesystem as a
finite association list from canonical segment paths to nodes (directory,
regular file with contents, or symbolic link), and translates the relevant
Python functions:

* `os.path.join`            -> `osPathJoin`
* `os.path.realpath`        -> `realpathL` (fuel-bounded symlink resolution;
                               non-strict: missing components are kept,
                               the working directory is modelled as `/`)
* `safe_join`               -> `safe_join` (string equality / `startswith`
                               containment check, exactly as in the source)
* `werkzeug.secure_filename`-> `secure_filename` (POSIX branch; the NFKD +
                               ascii-ignore step is modelled as dropping
                               non-ASCII characters, faithful for ASCII input)
* `_is_hidden`              -> `_is_hidden`
* upload POST branch        -> `uploadPost` (with `upload_check` /
                               `upload_write` as the two filesystem steps)
* directory listing branch  -> `listing`
* `download_file`           -> `download_file`
-/

/-- Filesystem node: directory, regular file with contents, or symbolic link
with its (string) target, as read by `os.readlink`. -/
inductive Node where
  | dir : Node
  | file (content : String) : Node
  | symlink (target : List Char) : Node
deriving DecidableEq

/-- A filesystem: finite association list from absolute canonical paths
(lists of name segments) to nodes. -/
abbrev Fs := List (List (List Char) × Node)

/-- Characters of a string literal, for readable path constants. -/
def str (s : String) : List Char := s.data

/-- Look a path up in the filesystem (first matching entry). -/
def lookupNode (fs : Fs) (p : List (List Char)) : Option Node :=
  match fs with
  | [] => none
  | e :: rest => if e.1 = p then some e.2 else lookupNode rest p

/-- Split a character list at separators satisfying `p`, dropping empty
pieces (the behaviour of both `os.path.realpath`'s component walk and of
Python's `str.split()` with no argument). -/
def splitDrop (p : Char → Bool) : List Char → List (List Char)
  | [] => []
  | c :: rest =>
    if p c then splitDrop p rest
    else
      match rest.head? with
      | some d =>
        if p d then [c] :: splitDrop p rest
        else
          match splitDrop p rest with
          | [] => [[c]]
          | s :: ss => (c :: s) :: ss
      | none => [[c]]

/-- Separator test for POSIX paths. -/
def isSlash (c : Char) : Bool := c == '/'

/-- Non-empty, `.`-and-`..`-preserving segment decomposition of a path
string (empty segments from repeated `/` are dropped, as `realpath` does). -/
def strToSegs (s : List Char) : List (List Char) := splitDrop isSlash s

/-- Render a canonical segment list back to an absolute path string, as
`os.path.realpath` returns it (`/` for the root, no trailing separator). -/
def segsCat : List (List Char) → List Char
  | [] => []
  | s :: rest => '/' :: (s ++ segsCat rest)

def segsToStr (l : List (List Char)) : List Char :=
  if l = [] then ['/'] else segsCat l

/-- Boolean string-prefix test, the embedding of Python's
`str.startswith`. -/
def isPre : List Char → List Char → Bool
  | [], _ => true
  | _ :: _, [] => false
  | a :: as, b :: bs => a == b && isPre as bs

/-- Symlink-resolving canonicalization walk of `os.path.realpath`
(non-strict).  Processes the pending segments left to right against the
resolved stack `st`; `.` is dropped, `..` pops the stack (staying at the
root when empty, as for absolute paths), and any resolved prefix that is a
symlink is replaced by its (recursively resolved) target.  `fuel` bounds
the total number of steps; on exhaustion the remaining segments are kept
unresolved, mirroring `realpath`'s give-up behaviour on symlink loops. -/
def resolveSegs (fs : Fs) : Nat → List (List Char) → List (List Char) → List (List Char)
  | 0, st, segs => st ++ segs
  | _ + 1, st, [] => st
  | fuel + 1, st, seg :: rest =>
    if seg = ['.'] then resolveSegs fs fuel st rest
    else if seg = ['.', '.'] then resolveSegs fs fuel st.dropLast rest
    else
      match lookupNode fs (st ++ [seg]) with
      | some (Node.symlink t) =>
        resolveSegs fs fuel
          (resolveSegs fs fuel (if t.head? = some '/' then [] else st) (strToSegs t)) rest
      | _ => resolveSegs fs fuel (st ++ [seg]) rest

/-- Step bound for `resolveSegs`; large enough for every path considered
in this development. -/
def FUEL : Nat := 64

/-- Embedding of `os.path.realpath` for a path string (the process working
directory is modelled as `/`, so relative inputs resolve against `/`). -/
def realpathL (fs : Fs) (s : List Char) : List Char :=
  segsToStr (resolveSegs fs FUEL [] (strToSegs s))

/-- Embedding of `os.path.join` (posixpath): an absolute component replaces
the accumulated path, otherwise components are concatenated with a single
separator inserted when needed. -/
def osPathJoin (base : List Char) (paths : List (List Char)) : List Char :=
  paths.foldl
    (fun acc p =>
      if p.head? = some '/' then p
      else if acc = [] ∨ acc.getLast? = some '/' then acc ++ p
      else acc ++ '/' :: p)
    base

/-- Embedding of `safe_join` (src/web_upload.py lines 79-87): canonicalize
the base and the joined path, then accept iff the result equals the
canonical base or starts with it followed by the separator; `none` models
the raised `ValueError`. -/
def safe_join (fs : Fs) (base : List Char) (paths : List (List Char)) : Option (List Char) :=
  if realpathL fs (osPathJoin base paths) = realpathL fs base ∨
      isPre (realpathL fs base ++ ['/']) (realpathL fs (osPathJoin base paths)) = true then
    some (realpathL fs (osPathJoin base paths))
  else none

/-- Hidden-name patterns (`HIDDEN_PREFIXES` in the source). -/
def HIDDEN_PREFIXES : List (List Char) := [['.']]

/-- Embedding of `_is_hidden` (src/web_upload.py lines 90-92). -/
def _is_hidden (name : List Char) : Bool :=
  HIDDEN_PREFIXES.any (fun pre => isPre pre name)

/-- Stat a segment path, following symlinks (the shared core of
`os.path.exists` / `os.path.isdir` / `os.path.isfile`). -/
def statNode (fs : Fs) (p : List (List Char)) : Option Node :=
  lookupNode fs (resolveSegs fs FUEL [] p)

/-- Embedding of `os.path.exists` on a segment path. -/
def path_exists (fs : Fs) (p : List (List Char)) : Bool :=
  (statNode fs p).isSome

/-- Embedding of `os.path.isdir` on a segment path. -/
def isdirSegs (fs : Fs) (p : List (List Char)) : Bool :=
  match statNode fs p with
  | some Node.dir => true
  | _ => false

/-- Embedding of `os.path.isfile` on a segment path. -/
def isfileSegs (fs : Fs) (p : List (List Char)) : Bool :=
  match statNode fs p with
  | some (Node.file _) => true
  | _ => false

/-- Embedding of `os.path.isfile` on a path string. -/
def isfileStr (fs : Fs) (s : List Char) : Bool :=
  isfileSegs fs (strToSegs s)

/-- Whitespace per Python's `str.split()` with no argument. -/
def pyWs (c : Char) : Bool :=
  c == ' ' || c == '\t' || c == '\n' || c == '\r' || c == '\x0b' || c == '\x0c'

/-- Characters kept by werkzeug's `_filename_ascii_strip_re`
(`[^A-Za-z0-9_.-]` is removed). -/
def keepChar (c : Char) : Bool :=
  (decide ('A' ≤ c) && decide (c ≤ 'Z')) ||
  (decide ('a' ≤ c) && decide (c ≤ 'z')) ||
  (decide ('0' ≤ c) && decide (c ≤ '9')) ||
  c == '_' || c == '.' || c == '-'

/-- Leading/trailing strip characters of `str.strip("._")`. -/
def dotUnder (c : Char) : Bool := c == '.' || c == '_'

/-- Embedding of `str.strip(chars)`: drop matching characters from both
ends. -/
def stripWhile (p : Char → Bool) (l : List Char) : List Char :=
  ((l.dropWhile p).reverse.dropWhile p).reverse

/-- Embedding of `werkzeug.utils.secure_filename` on POSIX: keep ASCII
(NFKD + ascii-ignore, modelled as dropping non-ASCII characters — exact
for ASCII input), replace `os.sep` by a space, `"_".join(filename.split())`,
delete every character outside `[A-Za-z0-9_.-]`, then `strip("._")`. -/
def secure_filename (filename : List Char) : List Char :=
  let ascii := filename.filter (fun c => decide (c.toNat ≤ 127))
  let replaced := ascii.map (fun c => if c == '/' then ' ' else c)
  let joined := List.intercalate ['_'] (splitDrop pyWs replaced)
  let kept := joined.filter keepChar
  stripWhile dotUnder kept

/-- Create or overwrite the regular file recorded at the exact path `q`
(the raw map update underlying a completed `open(..., "wb")` write). -/
def setNode (fs : Fs) (q : List (List Char)) (content : String) : Fs :=
  (q, Node.file content) :: fs.filter (fun e => !decide (e.1 = q))

/-- The filesystem effect of `file.save(dest_path)`: `open(dest_path,
"wb")` resolves the destination path — following a symbolic link in any
component, including a (possibly dangling) link in the final one — and
creates or truncates the regular file at the resolved location.  (An
`open` failure, e.g. a resolved parent that does not exist, is the
environmental `OSError` branch of line 152 and is not modelled.) -/
def writeNode (fs : Fs) (p : List (List Char)) (content : String) : Fs :=
  setNode fs (resolveSegs fs FUEL [] p) content

/-- The existence test of the upload gate (src/web_upload.py line 144:
`os.path.exists(dest_path)`). -/
def upload_check (fs : Fs) (dest : List (List Char)) : Bool :=
  path_exists fs dest

/-- The write of the upload gate (src/web_upload.py line 149:
`file.save(dest_path)`). -/
def upload_write (fs : Fs) (dest : List (List Char)) (content : String) : Fs :=
  writeNode fs dest content

/-- Outcomes of the upload POST branch, one per `flash` message of
src/web_upload.py lines 122-156. -/
inductive UploadOutcome where
  | noFileSelected : UploadOutcome
  | invalidFilename : UploadOutcome
  | hiddenRejected : UploadOutcome
  | conflict : UploadOutcome
  | stored (finalName : List Char) : UploadOutcome
deriving DecidableEq

/-- Embedding of the POST branch of `upload_file` (src/web_upload.py lines
122-156).  `cd` is the canonical segment path of the already-verified
`current_dir`; the result pairs the outcome with the filesystem after the
request (the `file.save` `OSError` branch is environmental and not
modelled: the save succeeds). -/
def uploadPost (fs : Fs) (cd : List (List Char)) (rawFilename : List Char)
    (content : String) : UploadOutcome × Fs :=
  if rawFilename = [] then (UploadOutcome.noFileSelected, fs)
  else if secure_filename rawFilename = [] then (UploadOutcome.invalidFilename, fs)
  else if _is_hidden (secure_filename rawFilename) then (UploadOutcome.hiddenRejected, fs)
  else if upload_check fs (cd ++ [secure_filename rawFilename]) then (UploadOutcome.conflict, fs)
  else (UploadOutcome.stored (secure_filename rawFilename),
    upload_write fs (cd ++ [secure_filename rawFilename]) content)

/-- Embedding of `os.listdir`: the names of the immediate children of `d`
recorded in the filesystem, in record order. -/
def listdir (fs : Fs) (d : List (List Char)) : List (List Char) :=
  fs.filterMap
    (fun e =>
      match e.1.getLast? with
      | some n => if e.1 = d ++ [n] then some n else none
      | none => none)

/-- Lexicographic-by-code-point comparison of names, the order Python's
`sorted` uses on `str`. -/
def strLe : List Char → List Char → Bool
  | [], _ => true
  | _ :: _, [] => false
  | a :: as, b :: bs => if a < b then true else if a = b then strLe as bs else false

/-- The `sorted` order as a decidable relation. -/
def strLeP (a b : List Char) : Prop := strLe a b = true

instance : DecidableRel strLeP := fun a b => by unfold strLeP; infer_instance

/-- Embedding of the directory-listing branch of `upload_file`
(src/web_upload.py lines 158-168): partition the visible children into
sorted directories and sorted files. -/
def listing (fs : Fs) (d : List (List Char)) : List (List Char) × List (List Char) :=
  (List.insertionSort strLeP
      ((listdir fs d).filter (fun e => isdirSegs fs (d ++ [e]) && !_is_hidden e)),
   List.insertionSort strLeP
      ((listdir fs d).filter (fun e => isfileSegs fs (d ++ [e]) && !_is_hidden e)))

/-- Embedding of Python's `str.split("/")`, which keeps empty pieces. -/
def pySplit : List Char → List (List Char)
  | [] => [[]]
  | c :: rest =>
    if c = '/' then [] :: pySplit rest
    else
      match pySplit rest with
      | [] => [[c]]
      | s :: ss => (c :: s) :: ss

/-- Client-observable outcome of a download request: `notFound` models
`abort(404)` (all rejection branches), `served` carries the canonical
segment path of the file handed to `send_from_directory`. -/
inductive DownloadOutcome where
  | notFound : DownloadOutcome
  | served (p : List (List Char)) : DownloadOutcome
deriving DecidableEq

/-- Embedding of `download_file` (src/web_upload.py lines 185-201). -/
def download_file (fs : Fs) (root : List Char) (filename : List Char) : DownloadOutcome :=
  match safe_join fs root [filename] with
  | none => DownloadOutcome.notFound
  | some resolved =>
    if isfileStr fs resolved = false then DownloadOutcome.notFound
    else if (pySplit filename).any (fun part => _is_hidden part) then DownloadOutcome.notFound
    else DownloadOutcome.served (strToSegs resolved)

/-- Example filesystem: a root with one subdirectory, next to a sibling
directory whose name extends the root's name. -/
def exFs1 : Fs :=
  [([str "root"], Node.dir),
   ([str "root", str "sub"], Node.dir),
   ([str "root-evil"], Node.dir),
   ([str "root-evil", str "x"], Node.file "evil")]

/-- Example filesystem: a symlink inside the root pointing to a directory
outside the root. -/
def exFs2 : Fs :=
  [([str "root"], Node.dir),
   ([str "root", str "link"], Node.symlink (str "/outside")),
   ([str "outside"], Node.dir),
   ([str "outside", str "secret"], Node.file "s")]

/-- Example filesystem: a root next to `/etc/passwd` and `/x`. -/
def exFs3 : Fs :=
  [([str "root"], Node.dir),
   ([str "etc"], Node.dir),
   ([str "etc", str "passwd"], Node.file "pw"),
   ([str "x"], Node.file "xx")]

/-- Example filesystem: a root that already contains `report.txt`. -/
def exFs6 : Fs :=
  [([str "root"], Node.dir),
   ([str "root", str "report.txt"], Node.file "old")]

/-- Example filesystem: a root with a single regular file. -/
def exFs7 : Fs :=
  [([str "root"], Node.dir),
   ([str "root", str "a.txt"], Node.file "hi")]

/-- Example filesystem: a hidden file inside the root, reachable through a
symlink whose own name is not hidden. -/
def exFs8 : Fs :=
  [([str "root"], Node.dir),
   ([str "root", str ".secret"], Node.file "top"),
   ([str "root", str "link"], Node.symlink (str "/root/.secret"))]

/-- Example filesystem for the listing claim: `.secret`, `a.txt`, `sub`. -/
def exFs9 : Fs :=
  [([str "root"], Node.dir),
   ([str "root", str ".secret"], Node.file "x"),
   ([str "root", str "a.txt"], Node.file "y"),
   ([str "root", str "sub"], Node.dir)]

/-- Example filesystem for a root configured as `/`: some real entries
directly under the filesystem root. -/
def exFs10 : Fs :=
  [([] , Node.dir),
   ([str "etc"], Node.dir),
   ([str "etc", str "passwd"], Node.file "pw")]

/-- Example filesystem: an empty upload root, the initial state of the
concurrent-upload race. -/
def exFs4 : Fs := [([str "root"], Node.dir)]

/-- Example filesystem: the upload root already holds a dangling symbolic
link named `etc_passwd` pointing to the non-existent `/etc/x`. -/
def exFs5 : Fs :=
  [([str "root"], Node.dir),
   ([str "root", str "etc_passwd"], Node.symlink (str "/etc/x")),
   ([str "etc"], Node.dir)]

/-- Validity of a canonical segment list: each segment is non-empty and
contains no separator. -/
def ValidSegs (l : List (List Char)) : Prop :=
  ∀ s ∈ l, s ≠ [] ∧ ('/' : Char) ∉ s

instance : IsTotal (List Char) strLeP := by
  constructor
  intro a
  induction a with
  | nil => intro b; left; rfl
  | cons c as ih =>
    intro b
    cases b with
    | nil => right; rfl
    | cons d bs =>
      rcases lt_trichotomy c d with h | h | h
      · left; simp [strLeP, strLe, h]
      · subst h
        rcases ih bs with h2 | h2
        · left; simpa [strLeP, strLe, lt_irrefl] using h2
        · right; simpa [strLeP, strLe, lt_irrefl] using h2
      · right; simp [strLeP, strLe, h]

instance : IsTrans (List Char) strLeP := by
  constructor
  intro a
  induction a with
  | nil => intro b c _ _; rfl
  | cons x as ih =>
    intro b c hab hbc
    cases b with
    | nil => simp [strLeP, strLe] at hab
    | cons y bs =>
      cases c with
      | nil => simp [strLeP, strLe] at hbc
      | cons z cs =>
        simp only [strLeP, strLe] at hab hbc ⊢
        by_cases hxy : x < y
        · by_cases hyz : y < z
          · simp [lt_trans hxy hyz]
          · simp only [if_neg hyz] at hbc
            by_cases hyz2 : y = z
            · subst hyz2; simp [hxy]
            · simp [hyz2] at hbc
        · simp only [if_neg hxy] at hab
          by_cases hxy2 : x = y
          · subst hxy2
            simp only [if_pos rfl] at hab
            by_cases hxz : x < z
            · simp [hxz]
            · simp only [if_neg hxz] at hbc ⊢
              by_cases hxz2 : x = z
              · subst hxz2
                simp only [if_pos rfl] at hbc ⊢
                exact ih bs cs hab hbc
              · -- x not less than z and x ≠ z: show the middle cannot sit between
                exfalso
                by_cases hxz3 : x < z
                · exact hxz hxz3
                · simp [hxz3, fun h : x = z => hxz2 h] at hbc
          · simp [hxy2] at hab

-- sanity checks (removed later if noisy)
example : safe_join exFs2 (str "/root") [str "link/secret"] = none := by rfl
example : safe_join exFs2 (str "/root") [str "link"] = none := by rfl
example : safe_join exFs2 (str "/root") [str "link/../root"] = some (str "/root") := by rfl
example : download_file exFs8 (str "/root") (str "link") =
    DownloadOutcome.served [str "root", str ".secret"] := by rfl
example : download_file exFs8 (str "/root") (str ".secret") =
    DownloadOutcome.notFound := by rfl
example : listing exFs9 [str "root"] = ([str "sub"], [str "a.txt"]) := by rfl
example : safe_join exFs10 (str "/") [str "etc"] = none := by rfl
example : safe_join exFs10 (str "/") [str ""] = some (str "/") := by rfl
example : uploadPost exFs6 [str "root"] (str "report.txt") "new" =
    (UploadOutcome.conflict, exFs6) := by rfl
example : secure_filename (str "../../etc/passwd") = str "etc_passwd" := by rfl
example : secure_filename (str "report.txt") = str "report.txt" := by rfl
example : secure_filename (str ".bashrc") = str "bashrc" := by rfl
example : secure_filename (str "..") = [] := by rfl
example : pySplit (str "a//b") = [str "a", [], str "b"] := by rfl
example : pySplit (str "") = [[]] := by rfl
example : strToSegs (str "/root//a/b/") = [str "root", str "a", str "b"] := by rfl
example : osPathJoin (str "/root") [str "/etc/passwd"] = str "/etc/passwd" := by rfl
example : osPathJoin (str "/root") [str "a/b"] = str "/root/a/b" := by rfl
example : osPathJoin (str "/") [str ""] = str "/" := by rfl
example : realpathL [] (str "/root/../x") = str "/x" := by rfl
example :
    safe_join [([str "root"], Node.dir), ([str "root-evil"], Node.dir)]
      (str "/root") [str "../root-evil"] = none := by rfl
example :
    safe_join [([str "root"], Node.dir), ([str "root", str "sub"], Node.dir)]
      (str "/root") [str "sub"] = some (str "/root/sub") := by rfl

/-! ### Basic facts about the boolean string operations -/

theorem isPre_iff : ∀ u v : List Char, isPre u v = true ↔ u <+: v
  | [], v => by simp [isPre]
  | a :: as, [] => by simp [isPre]
  | a :: as, b :: bs => by
    simp [isPre, Bool.and_eq_true, beq_iff_eq, isPre_iff as bs, List.cons_prefix_cons]

/-- The segments produced by `splitDrop` are non-empty and free of
separator characters. -/
theorem splitDrop_valid (p : Char → Bool) :
    ∀ s : List Char, ∀ x ∈ splitDrop p s, x ≠ [] ∧ ∀ c ∈ x, p c = false := by
  intro s
  induction s with
  | nil => intro x hx; simp [splitDrop] at hx
  | cons c rest ih =>
    intro x hx
    simp only [splitDrop] at hx
    by_cases hc : p c
    · rw [if_pos hc] at hx
      exact ih x hx
    · rw [if_neg hc] at hx
      cases hh : rest.head? with
      | none =>
        rw [hh] at hx
        simp at hx
        subst hx
        refine ⟨by simp, ?_⟩
        intro d hd
        simp at hd
        subst hd
        simpa using hc
      | some d =>
        rw [hh] at hx
        dsimp only at hx
        by_cases hd : p d
        · rw [if_pos hd] at hx
          rcases List.mem_cons.mp hx with h | h
          · subst h
            refine ⟨by simp, ?_⟩
            intro e he
            simp at he
            subst he
            simpa using hc
          · exact ih x h
        · rw [if_neg hd] at hx
          cases hs : splitDrop p rest with
          | nil =>
            rw [hs] at hx
            simp at hx
            subst hx
            refine ⟨by simp, ?_⟩
            intro e he
            simp at he
            subst he
            simpa using hc
          | cons s0 ss =>
            rw [hs] at hx
            rcases List.mem_cons.mp hx with h | h
            · subst h
              have h0 := ih s0 (by rw [hs]; exact List.mem_cons_self _ _)
              refine ⟨by simp, ?_⟩
              intro e he
              rcases List.mem_cons.mp he with he2 | he2
              · subst he2; simpa using hc
              · exact h0.2 e he2
            · exact ih x (by rw [hs]; exact List.mem_cons_of_mem _ h)

theorem validSegs_strToSegs (s : List Char) : ValidSegs (strToSegs s) := by
  intro x hx
  obtain ⟨h1, h2⟩ := splitDrop_valid isSlash s x hx
  refine ⟨h1, fun hc => ?_⟩
  have h3 := h2 '/' hc
  simp [isSlash] at h3

theorem mem_of_mem_dropLast {α : Type} {l : List α} {x : α} (h : x ∈ l.dropLast) : x ∈ l := by
  induction l with
  | nil => simp at h
  | cons a t ih =>
    cases t with
    | nil => simp [List.dropLast] at h
    | cons b t2 =>
      rw [List.dropLast_cons₂] at h
      rcases List.mem_cons.mp h with h2 | h2
      · subst h2; exact List.mem_cons_self _ _
      · exact List.mem_cons_of_mem _ (ih h2)

theorem validSegs_resolveSegs (fs : Fs) :
    ∀ fuel st segs, ValidSegs st → ValidSegs segs →
      ValidSegs (resolveSegs fs fuel st segs) := by
  intro fuel
  induction fuel with
  | zero =>
    intro st segs hst hsegs x hx
    simp only [resolveSegs] at hx
    rcases List.mem_append.mp hx with h | h
    · exact hst x h
    · exact hsegs x h
  | succ n ih =>
    intro st segs hst hsegs
    cases segs with
    | nil => simpa [resolveSegs] using hst
    | cons seg rest =>
      have hseg := hsegs seg (List.mem_cons_self _ _)
      have hrest : ValidSegs rest := fun x hx => hsegs x (List.mem_cons_of_mem _ hx)
      simp only [resolveSegs]
      split
      · exact ih st rest hst hrest
      · split
        · exact ih st.dropLast rest (fun x hx => hst x (mem_of_mem_dropLast hx)) hrest
        · split
          · -- symlink case
            apply ih
            · apply ih
              · split
                · intro x hx; simp at hx
                · exact hst
              · exact validSegs_strToSegs _
            · exact hrest
          · -- ordinary entry
            apply ih _ _ _ hrest
            intro x hx
            rcases List.mem_append.mp hx with h | h
            · exact hst x h
            · simp at h; subst h; exact hseg

/-! ### The string containment check agrees with segment-level containment -/

/-- In strings whose first separator occurs after a separator-free block,
a string-prefix relation forces the blocks to agree. -/
theorem noslashPre :
    ∀ (x y u v : List Char), ('/' : Char) ∉ x → ('/' : Char) ∉ y →
      (x ++ '/' :: u) <+: (y ++ '/' :: v) → x = y ∧ u <+: v := by
  intro x
  induction x with
  | nil =>
    intro y u v _ hy h
    cases y with
    | nil =>
      simp only [List.nil_append] at h
      rw [List.cons_prefix_cons] at h
      exact ⟨rfl, h.2⟩
    | cons b y2 =>
      simp only [List.nil_append, List.cons_append] at h
      rw [List.cons_prefix_cons] at h
      exact absurd (h.1 ▸ List.mem_cons_self b y2) hy
  | cons a x2 ih =>
    intro y u v hx hy h
    cases y with
    | nil =>
      simp only [List.cons_append, List.nil_append] at h
      rw [List.cons_prefix_cons] at h
      exact absurd (h.1 ▸ List.mem_cons_self a x2) hx
    | cons b y2 =>
      simp only [List.cons_append] at h
      rw [List.cons_prefix_cons] at h
      obtain ⟨hab, h2⟩ := h
      have hx2 : ('/' : Char) ∉ x2 := fun hm => hx (List.mem_cons_of_mem _ hm)
      have hy2 : ('/' : Char) ∉ y2 := fun hm => hy (List.mem_cons_of_mem _ hm)
      obtain ⟨he, hp⟩ := ih y2 u v hx2 hy2 h2
      exact ⟨by rw [hab, he], hp⟩

/-- Rendered segment lists, each terminated by a separator, compare as
prefixes exactly when the segment lists do. -/
theorem segsCat_pre :
    ∀ (a b : List (List Char)), ValidSegs a → ValidSegs b →
      (segsCat a ++ ['/']) <+: (segsCat b ++ ['/']) → a <+: b := by
  intro a
  induction a with
  | nil => intro b _ _ _; exact List.nil_prefix
  | cons x a2 ih =>
    intro b ha hb h
    have hx := ha x (List.mem_cons_self _ _)
    have ha2 : ValidSegs a2 := fun s hs => ha s (List.mem_cons_of_mem _ hs)
    cases b with
    | nil =>
      exfalso
      simp only [segsCat, List.nil_append] at h
      have hlen := h.length_le
      simp at hlen
    | cons y b2 =>
      have hy := hb y (List.mem_cons_self _ _)
      have hb2 : ValidSegs b2 := fun s hs => hb s (List.mem_cons_of_mem _ hs)
      simp only [segsCat, List.cons_append, List.append_assoc] at h
      rw [List.cons_prefix_cons] at h
      obtain ⟨-, h2⟩ := h
      have hstep := noslashPre (x := x) (y := y)
          (u := (segsCat a2 ++ ['/']).tail) (v := (segsCat b2 ++ ['/']).tail)
          hx.2 hy.2
      have hsh : ∀ l : List (List Char), segsCat l ++ ['/'] = '/' :: (segsCat l ++ ['/']).tail := by
        intro l
        cases l with
        | nil => rfl
        | cons s r => rfl
      rw [← hsh a2, ← hsh b2] at hstep
      obtain ⟨he, hp⟩ := hstep h2
      have htl : (segsCat a2 ++ ['/']) <+: (segsCat b2 ++ ['/']) := by
        rw [hsh a2, hsh b2]
        rw [List.cons_prefix_cons]
        exact ⟨rfl, hp⟩
      have := ih b2 ha2 hb2 htl
      rw [List.cons_prefix_cons]
      exact ⟨he, this⟩

/-- The accepting condition of `safe_join`'s `startswith` branch implies
segment-level containment of the canonical root in the canonical result. -/
theorem check_pre (a b : List (List Char)) (ha : ValidSegs a) (hb : ValidSegs b)
    (h : isPre (segsToStr a ++ ['/']) (segsToStr b) = true) : a <+: b := by
  have h2 : (segsToStr a ++ ['/']) <+: segsToStr b := (isPre_iff _ _).mp h
  cases a with
  | nil => exact List.nil_prefix
  | cons x a2 =>
    have hx := ha x (List.mem_cons_self _ _)
    cases b with
    | nil =>
      exfalso
      have h3 : segsToStr (x :: a2) ++ ['/'] = '/' :: (x ++ segsCat a2) ++ ['/'] := by
        simp [segsToStr, segsCat]
      rw [h3] at h2
      have hlen := h2.length_le
      simp [segsToStr] at hlen
    | cons y b2 =>
      have hstep : (segsCat (x :: a2) ++ ['/']) <+: (segsCat (y :: b2) ++ ['/']) := by
        have hbase : (segsToStr (x :: a2) ++ ['/']) <+: (segsToStr (y :: b2) ++ ['/']) :=
          h2.trans (List.prefix_append _ _)
        simpa [segsToStr] using hbase
      exact segsCat_pre (x :: a2) (y :: b2) ha hb hstep

/-- A root whose canonical form is the bare separator never passes the
`startswith` branch: canonical results contain no doubled separator. -/
theorem doubleSlash_not_pre (b : List (List Char)) (hb : ValidSegs b) :
    isPre (['/', '/']) (segsToStr b) = false := by
  cases b with
  | nil => rfl
  | cons y b2 =>
    have hy := hb y (List.mem_cons_self _ _)
    cases hy2 : y with
    | nil => exact absurd hy2 hy.1
    | cons c y3 =>
      have hc : c ≠ '/' := by
        intro h
        exact hy.2 (by rw [hy2, h]; exact List.mem_cons_self _ _)
      have hshape : segsToStr ((c :: y3) :: b2) = '/' :: c :: (y3 ++ segsCat b2) := by
        simp [segsToStr, segsCat]
      rw [hshape]
      have hcc : ('/' : Char) ≠ c := fun h => hc h.symm
      simp [isPre, hcc]

/-! ### Round trip between segment lists and rendered path strings -/

theorem splitDrop_sep_cons (p : Char → Bool) (c : Char) (hc : p c = true) (s : List Char) :
    splitDrop p (c :: s) = splitDrop p s := by
  simp [splitDrop, hc]

/-- One-step unfolding of `splitDrop` when two consecutive characters are
not separators. -/
theorem splitDrop_cons₂ (p : Char → Bool) (c d : Char) (rest : List Char)
    (hc : p c = false) (hd : p d = false) :
    splitDrop p (c :: d :: rest) =
      match splitDrop p (d :: rest) with
      | [] => [[c]]
      | s :: ss => (c :: s) :: ss := by
  simp [splitDrop, hc, hd]

/-- One-step unfolding of `splitDrop` when a non-separator is followed by a
separator. -/
theorem splitDrop_cons_sep (p : Char → Bool) (c d : Char) (rest : List Char)
    (hc : p c = false) (hd : p d = true) :
    splitDrop p (c :: d :: rest) = [c] :: splitDrop p rest := by
  simp [splitDrop, hc, hd]

theorem splitDrop_noSep (p : Char → Bool) :
    ∀ x : List Char, x ≠ [] → (∀ c ∈ x, p c = false) → splitDrop p x = [x] := by
  intro x
  induction x with
  | nil => intro h _; exact absurd rfl h
  | cons c rest ih =>
    intro _ hall
    have hc : p c = false := hall c (List.mem_cons_self _ _)
    cases rest with
    | nil => simp [splitDrop, hc]
    | cons d rest2 =>
      have hd : p d = false := hall d (List.mem_cons_of_mem _ (List.mem_cons_self _ _))
      have ih2 := ih (by simp) (fun e he => hall e (List.mem_cons_of_mem _ he))
      rw [splitDrop_cons₂ p c d rest2 hc hd, ih2]

theorem splitDrop_append_sep (p : Char → Bool) :
    ∀ (x : List Char) (t : List Char) (d : Char), x ≠ [] → (∀ c ∈ x, p c = false) →
      p d = true → splitDrop p (x ++ d :: t) = x :: splitDrop p t := by
  intro x
  induction x with
  | nil => intro t d h _ _; exact absurd rfl h
  | cons c rest ih =>
    intro t d _ hall hd
    have hc : p c = false := hall c (List.mem_cons_self _ _)
    cases rest with
    | nil =>
      show splitDrop p (c :: d :: t) = [c] :: splitDrop p t
      exact splitDrop_cons_sep p c d t hc hd
    | cons e rest2 =>
      have he : p e = false := hall e (List.mem_cons_of_mem _ (List.mem_cons_self _ _))
      have ih2 := ih t d (by simp) (fun g hg => hall g (List.mem_cons_of_mem _ hg)) hd
      show splitDrop p (c :: e :: (rest2 ++ d :: t)) = (c :: e :: rest2) :: splitDrop p t
      rw [splitDrop_cons₂ p c e (rest2 ++ d :: t) hc he]
      have ih3 : splitDrop p (e :: (rest2 ++ d :: t)) = (e :: rest2) :: splitDrop p t := by
        simpa using ih2
      rw [ih3]

theorem strToSegs_segsCat : ∀ l : List (List Char), ValidSegs l → strToSegs (segsCat l) = l := by
  intro l
  induction l with
  | nil => intro _; rfl
  | cons x r ih =>
    intro h
    have hx := h x (List.mem_cons_self _ _)
    have hr : ValidSegs r := fun s hs => h s (List.mem_cons_of_mem _ hs)
    have hxc : ∀ c ∈ x, isSlash c = false := by
      intro c hc
      have : c ≠ '/' := fun hcc => hx.2 (hcc ▸ hc)
      simp [isSlash, this]
    show splitDrop isSlash ('/' :: (x ++ segsCat r)) = x :: r
    rw [splitDrop_sep_cons isSlash '/' (by simp [isSlash]) _]
    cases hrc : r with
    | nil =>
      simp only [segsCat, List.append_nil]
      exact splitDrop_noSep isSlash x hx.1 hxc
    | cons z r2 =>
      have : segsCat (z :: r2) = '/' :: (z ++ segsCat r2) := rfl
      rw [this]
      rw [splitDrop_append_sep isSlash x (z ++ segsCat r2) '/' hx.1 hxc (by simp [isSlash])]
      have ihr := ih hr
      rw [hrc] at ihr
      have : splitDrop isSlash (z ++ segsCat r2) = z :: r2 := by
        have h2 : strToSegs (segsCat (z :: r2)) = z :: r2 := ihr
        rw [show segsCat (z :: r2) = '/' :: (z ++ segsCat r2) from rfl] at h2
        rw [show strToSegs ('/' :: (z ++ segsCat r2)) =
            splitDrop isSlash (z ++ segsCat r2) from
          splitDrop_sep_cons isSlash '/' (by simp [isSlash]) _] at h2
        exact h2
      rw [this]

theorem strToSegs_segsToStr (l : List (List Char)) (h : ValidSegs l) :
    strToSegs (segsToStr l) = l := by
  cases hl : l with
  | nil => rfl
  | cons x r =>
    have : segsToStr (x :: r) = segsCat (x :: r) := by simp [segsToStr]
    rw [this]
    exact strToSegs_segsCat (x :: r) (hl ▸ h)

/-! ### Claim C1 -/

/-- C1: for every configured root and client-supplied relative path
(including any sequence of `..` segments), `safe_join` either returns a
canonicalized path whose segments extend the canonicalized root's segments
(equal to the root or a strict path-segment descendant) or rejects the
request; the segment-level containment means a sibling such as
`/root-evil` is not accepted as being inside `/root`, which the second
conjunct checks on an explicit attempt. -/
theorem c1_safe_join_containment :
    (∀ (fs : Fs) (base : List Char) (paths : List (List Char)) (r : List Char),
      safe_join fs base paths = some r →
        strToSegs (realpathL fs base) <+: strToSegs r) ∧
    safe_join exFs1 (str "/root") [str "../root-evil"] = none := by
  constructor
  · intro fs base paths r h
    unfold safe_join at h
    split at h
    case isTrue hcond =>
      injection h with h
      subst h
      rcases hcond with heq | hpre
      · rw [heq]
      · have ha : ValidSegs (resolveSegs fs FUEL [] (strToSegs base)) :=
          validSegs_resolveSegs fs FUEL [] (strToSegs base)
            (fun s hs => by simp at hs) (validSegs_strToSegs base)
        have hb : ValidSegs (resolveSegs fs FUEL [] (strToSegs (osPathJoin base paths))) :=
          validSegs_resolveSegs fs FUEL [] (strToSegs (osPathJoin base paths))
            (fun s hs => by simp at hs) (validSegs_strToSegs _)
        have hseg := check_pre _ _ ha hb hpre
        unfold realpathL
        rw [strToSegs_segsToStr _ ha, strToSegs_segsToStr _ hb]
        exact hseg
    case isFalse => exact absurd h (by simp)
  · rfl

/-- Witness for C1: a concrete accepted request, with the containment
conclusion instantiated. -/
theorem c1_witness :
    safe_join exFs1 (str "/root") [str "sub"] = some (str "/root/sub") ∧
    strToSegs (realpathL exFs1 (str "/root")) <+: strToSegs (str "/root/sub") :=
  ⟨rfl, c1_safe_join_containment.1 exFs1 (str "/root") [str "sub"] (str "/root/sub") rfl⟩

/-! ### Claim C10 -/

/-- C10: when the configured root canonicalizes to the filesystem root `/`,
`safe_join` accepts only results whose canonical form is exactly `/`
(because the descendant check tests for the never-occurring doubled
separator `//`); in particular the genuine existing descendant `/etc` of
`exFs10` is rejected, as the second conjunct checks. -/
theorem c10_slash_root_degenerate :
    (∀ (fs : Fs) (base : List Char) (paths : List (List Char)) (r : List Char),
      realpathL fs base = str "/" → safe_join fs base paths = some r → r = str "/") ∧
    safe_join exFs10 (str "/") [str "etc"] = none := by
  constructor
  · intro fs base paths r hroot h
    unfold safe_join at h
    split at h
    case isTrue hcond =>
      injection h with h
      subst h
      rcases hcond with heq | hpre
      · rw [heq, hroot]
      · exfalso
        rw [hroot] at hpre
        have hb : ValidSegs (resolveSegs fs FUEL [] (strToSegs (osPathJoin base paths))) :=
          validSegs_resolveSegs fs FUEL [] (strToSegs (osPathJoin base paths))
            (fun s hs => by simp at hs) (validSegs_strToSegs _)
        have hfalse := doubleSlash_not_pre _ hb
        have hpre2 : isPre (['/', '/'])
            (segsToStr (resolveSegs fs FUEL [] (strToSegs (osPathJoin base paths)))) = true := by
          simpa [realpathL] using hpre
        rw [hfalse] at hpre2
        cases hpre2
    case isFalse => exact absurd h (by simp)
  · rfl

/-- Witness for C10: the only accepted canonical result over root `/` is
`/` itself. -/
theorem c10_witness :
    realpathL exFs10 (str "/") = str "/" ∧
    safe_join exFs10 (str "/") [str ""] = some (str "/") ∧ (str "/") = str "/" :=
  ⟨rfl, rfl, c10_slash_root_degenerate.1 exFs10 (str "/") [str ""] (str "/") rfl rfl⟩

/-! ### Claim C2 -/

/-- Every path under `/outside` in `exFs2` resolves without meeting a
symlink: the lookup table below `outside` holds only a directory and a
regular file. -/
theorem lookup_exFs2_outside (l : List (List Char)) :
    lookupNode exFs2 (str "outside" :: l) =
      (if l = [] then some Node.dir
       else if l = [str "secret"] then some (Node.file "s") else none) := by
  have h1 : ¬ ([str "root"] = str "outside" :: l) := by
    intro h
    injection h with ha _
    exact absurd ha (by decide)
  have h2 : ¬ ([str "root", str "link"] = str "outside" :: l) := by
    intro h
    injection h with ha _
    exact absurd ha (by decide)
  simp only [exFs2, lookupNode, if_neg h1, if_neg h2]
  by_cases hl : l = []
  · subst hl
    rw [if_pos rfl, if_pos rfl]
  · rw [if_neg hl]
    have h3 : ¬ ([str "outside"] = str "outside" :: l) := by
      intro h
      injection h with _ hb
      exact hl hb.symm
    rw [if_neg h3]
    by_cases hs : l = [str "secret"]
    · subst hs
      rw [if_pos rfl, if_pos rfl]
    · rw [if_neg hs]
      have h4 : ¬ ([str "outside", str "secret"] = str "outside" :: l) := by
        intro h
        injection h with _ hb
        exact hs hb.symm
      rw [if_neg h4]

/-- Once the canonicalization walk of `exFs2` has entered the `outside`
subtree, any continuation free of `..` segments stays in that subtree. -/
theorem resolveSegs_exFs2_outside :
    ∀ (fuel : Nat) (st segs : List (List Char)),
      st.head? = some (str "outside") → (str "..") ∉ segs →
      (resolveSegs exFs2 fuel st segs).head? = some (str "outside") := by
  intro fuel
  induction fuel with
  | zero =>
    intro st segs hh _
    cases st with
    | nil => simp at hh
    | cons a st2 =>
      simp only [List.head?] at hh
      injection hh with hh
      subst hh
      simp [resolveSegs]
  | succ n ih =>
    intro st segs hh hnd
    cases segs with
    | nil => simpa [resolveSegs] using hh
    | cons seg rest =>
      have hseg : seg ≠ str ".." := fun h => hnd (h ▸ List.mem_cons_self _ _)
      have hrest : (str "..") ∉ rest := fun h => hnd (List.mem_cons_of_mem _ h)
      cases st with
      | nil => simp at hh
      | cons a st2 =>
        simp only [List.head?] at hh
        injection hh with hh
        subst hh
        simp only [resolveSegs]
        split
        · exact ih _ rest rfl hrest
        · split
          case isTrue hdd =>
            exfalso
            apply hseg
            rw [hdd]
            decide
          case isFalse =>
            rw [List.cons_append, lookup_exFs2_outside (st2 ++ [seg])]
            have hne : ¬ (st2 ++ [seg] = ([] : List (List Char))) := by simp
            rw [if_neg hne]
            by_cases hs : st2 ++ [seg] = [str "secret"]
            · rw [if_pos hs]
              exact ih _ rest rfl hrest
            · rw [if_neg hs]
              exact ih _ rest rfl hrest

/-- C2 counterexample: with the symlink `/root/link -> /outside` of
`exFs2`, the relative path `link/../root` goes through the link, yet
`safe_join` accepts it (the `..` applies to the resolved link target and
leads back under the root), so "any path that goes through that link is
rejected" is false as stated. -/
theorem c2_cex_backtrack_accepted :
    safe_join exFs2 (str "/root") [str "link/../root"] = some (str "/root") := by rfl

/-- C2 (amended): with the symlink `/root/link -> /outside` of `exFs2`,
every request that goes through the link and stays within the link's
target subtree (its continuation contains no further `..` segment) is
rejected: canonicalization resolves the symlink before the containment
check, so the canonical result lives under `/outside` and fails the
check against `/root`. -/
theorem c2_symlink_escape_rejected :
    ∀ s : List Char, (str "..") ∉ strToSegs s →
      safe_join exFs2 (str "/root") [str "link/" ++ s] = none := by
  intro s hnd
  have hfin : realpathL exFs2 (osPathJoin (str "/root") [str "link/" ++ s]) =
      segsToStr (resolveSegs exFs2 62 [str "outside"] (strToSegs s)) := by
    show segsToStr (resolveSegs exFs2 FUEL [] (strToSegs (osPathJoin (str "/root")
        [str "link/" ++ s]))) = _
    rw [show strToSegs (osPathJoin (str "/root") [str "link/" ++ s]) =
        str "root" :: str "link" :: strToSegs s from rfl]
    rw [show resolveSegs exFs2 FUEL [] (str "root" :: str "link" :: strToSegs s) =
        resolveSegs exFs2 62 [str "outside"] (strToSegs s) from rfl]
  have hout := resolveSegs_exFs2_outside 62 [str "outside"] (strToSegs s) rfl hnd
  cases hR : resolveSegs exFs2 62 [str "outside"] (strToSegs s) with
  | nil => rw [hR] at hout; simp at hout
  | cons a R2 =>
    rw [hR] at hout hfin
    simp only [List.head?] at hout
    injection hout with hout
    subst hout
    unfold safe_join
    rw [if_neg]
    intro hcond
    rcases hcond with heq | hpre
    · rw [hfin] at heq
      have hget : (segsToStr (str "outside" :: R2))[1]? = some 'o' := rfl
      have hbad : some 'o' = (realpathL exFs2 (str "/root"))[1]? := by
        rw [← hget, heq]
      exact absurd hbad (by decide)
    · rw [hfin] at hpre
      have hfalse : isPre (realpathL exFs2 (str "/root") ++ ['/'])
          (segsToStr (str "outside" :: R2)) = false := rfl
      rw [hfalse] at hpre
      cases hpre

/-- Witness for C2: a concrete escape through the symlink, rejected. -/
theorem c2_witness :
    (str "..") ∉ strToSegs (str "secret") ∧
    safe_join exFs2 (str "/root") [str "link/" ++ str "secret"] = none :=
  ⟨by decide, c2_symlink_escape_rejected (str "secret") (by decide)⟩

/-! ### Claim C3 -/

/-- C3 counterexample: the join step itself does not keep the joined,
pre-canonicalization result under the root.  `os.path.join` lets an
absolute-looking component replace the root wholesale: joining `/root`
with `/etc/passwd` yields `/etc/passwd`, which neither equals `/root` nor
starts with `/root/`. -/
theorem c3_cex_join_escapes :
    osPathJoin (str "/root") [str "/etc/passwd"] = str "/etc/passwd" ∧
    decide (osPathJoin (str "/root") [str "/etc/passwd"] = str "/root") = false ∧
    isPre (str "/root" ++ ['/']) (osPathJoin (str "/root") [str "/etc/passwd"]) = false :=
  ⟨rfl, rfl, rfl⟩

/-- C3 (amended): the join step neutralizes nothing — an absolute
component replaces the root and `..` components pass through verbatim —
but the subsequent canonicalize-and-check steps of `safe_join` reject such
deceptive inputs, so the composed resolver still refuses them. -/
theorem c3_join_then_check :
    osPathJoin (str "/root") [str "/etc/passwd"] = str "/etc/passwd" ∧
    osPathJoin (str "/root") [str "../x"] = str "/root/../x" ∧
    safe_join exFs3 (str "/root") [str "/etc/passwd"] = none ∧
    safe_join exFs3 (str "/root") [str "../x"] = none ∧
    safe_join exFs3 (str "/root") [str "../../etc/passwd"] = none :=
  ⟨rfl, rfl, rfl, rfl, rfl⟩

/-! ### Claim C4 -/

/-- C4: the upload gate is a separate existence check (line 144,
`os.path.exists`) followed by a write (line 149, `file.save`), not an
atomic create-exclusive primitive.  Under the interleaving "A checks, B
checks, A writes, B writes" of two uploads of the same new name `a.txt`
into `exFs4`, both checks run against the unchanged filesystem and return
`false`, so per lines 144-151 both requests proceed to save and report
success; the final state holds B's bytes and A's upload is silently lost —
no `ConflictError` is produced, contradicting the claimed
exactly-one-succeeds behaviour. -/
theorem c4_check_then_write_race :
    upload_check exFs4 [str "root", str "a.txt"] = false ∧
    upload_check exFs4 [str "root", str "a.txt"] = false ∧
    uploadPost exFs4 [str "root"] (str "a.txt") "AAAA" =
      (UploadOutcome.stored (str "a.txt"),
        upload_write exFs4 [str "root", str "a.txt"] "AAAA") ∧
    lookupNode
        (upload_write (upload_write exFs4 [str "root", str "a.txt"] "AAAA")
          [str "root", str "a.txt"] "BBBB")
        [str "root", str "a.txt"] = some (Node.file "BBBB") ∧
    lookupNode (upload_write exFs4 [str "root", str "a.txt"] "AAAA")
        [str "root", str "a.txt"] = some (Node.file "AAAA") :=
  ⟨rfl, rfl, rfl, rfl, rfl⟩

/-! ### Sanitized names never match the hidden-entry predicate -/

theorem dropWhile_head_false (p : Char → Bool) :
    ∀ (l : List Char) (c : Char) (t : List Char), l.dropWhile p = c :: t → p c = false := by
  intro l
  induction l with
  | nil => intro c t h; simp [List.dropWhile] at h
  | cons a rest ih =>
    intro c t h
    by_cases ha : p a
    · rw [List.dropWhile_cons_of_pos ha] at h
      exact ih c t h
    · rw [List.dropWhile_cons_of_neg ha] at h
      injection h with h1 _
      subst h1
      simpa using ha

theorem dropWhile_suffix_exists (p : Char → Bool) :
    ∀ l : List Char, ∃ t : List Char, t ++ l.dropWhile p = l := by
  intro l
  induction l with
  | nil => exact ⟨[], rfl⟩
  | cons a rest ih =>
    by_cases ha : p a
    · obtain ⟨t, ht⟩ := ih
      exact ⟨a :: t, by rw [List.dropWhile_cons_of_pos ha, List.cons_append, ht]⟩
    · exact ⟨[], by rw [List.dropWhile_cons_of_neg ha, List.nil_append]⟩

theorem stripWhile_pre (p : Char → Bool) (l : List Char) :
    ∃ t : List Char, stripWhile p l ++ t = l.dropWhile p := by
  obtain ⟨t2, ht2⟩ := dropWhile_suffix_exists p (l.dropWhile p).reverse
  refine ⟨t2.reverse, ?_⟩
  have := congrArg List.reverse ht2
  simp only [List.reverse_append, List.reverse_reverse] at this
  simpa [stripWhile] using this

theorem stripWhile_head (p : Char → Bool) (l : List Char) (c : Char) (r : List Char)
    (h : stripWhile p l = c :: r) : p c = false := by
  obtain ⟨t, ht⟩ := stripWhile_pre p l
  rw [h, List.cons_append] at ht
  exact dropWhile_head_false p l c (r ++ t) ht.symm

/-- A non-empty sanitized filename never begins with `.` (or `_`): the
final `strip("._")` of `secure_filename` removes them, so the upload
gate's hidden-name rejection can never fire. -/
theorem sf_not_hidden (raw : List Char) (h : secure_filename raw ≠ []) :
    _is_hidden (secure_filename raw) = false := by
  cases hs : secure_filename raw with
  | nil => exact absurd hs h
  | cons c r =>
    have hstrip : stripWhile dotUnder
        ((List.intercalate ['_'] (splitDrop pyWs
          ((raw.filter (fun c => decide (c.toNat ≤ 127))).map
            (fun c => if c == '/' then ' ' else c)))).filter keepChar) = c :: r := hs
    have hdot : dotUnder c = false := stripWhile_head dotUnder _ c r hstrip
    have hcd : c ≠ '.' := by
      intro hcc
      rw [hcc] at hdot
      simp [dotUnder] at hdot
    have hdc : ('.' : Char) ≠ c := fun h2 => hcd h2.symm
    simp [_is_hidden, HIDDEN_PREFIXES, isPre, hdc]

/-! ### The upload gate, branch by branch -/

theorem uploadPost_invalid (fs : Fs) (cd : List (List Char)) (raw : List Char)
    (content : String) (h1 : raw ≠ []) (h2 : secure_filename raw = []) :
    uploadPost fs cd raw content = (UploadOutcome.invalidFilename, fs) := by
  unfold uploadPost
  rw [if_neg h1, if_pos h2]

theorem uploadPost_conflict (fs : Fs) (cd : List (List Char)) (raw : List Char)
    (content : String) (h1 : raw ≠ []) (h2 : secure_filename raw ≠ [])
    (h3 : upload_check fs (cd ++ [secure_filename raw]) = true) :
    uploadPost fs cd raw content = (UploadOutcome.conflict, fs) := by
  unfold uploadPost
  rw [if_neg h1, if_neg h2, if_neg (by simp [sf_not_hidden raw h2]), if_pos h3]

theorem uploadPost_stores (fs : Fs) (cd : List (List Char)) (raw : List Char)
    (content : String) (h1 : raw ≠ []) (h2 : secure_filename raw ≠ [])
    (h3 : upload_check fs (cd ++ [secure_filename raw]) = false) :
    uploadPost fs cd raw content =
      (UploadOutcome.stored (secure_filename raw),
        upload_write fs (cd ++ [secure_filename raw]) content) := by
  unfold uploadPost
  rw [if_neg h1, if_neg h2, if_neg (by simp [sf_not_hidden raw h2]),
    if_neg (by simp [h3])]

/-! ### Claim C5 -/

/-- C5: the claim's checks do run in the source order with distinct
outcomes, and `../../etc/passwd` sanitizes to the bare name `etc_passwd`;
but the claimed guarantee "never a write outside the target directory"
fails on the code.  With the dangling symbolic link
`/root/etc_passwd -> /etc/x` of `exFs5` already in the target directory,
`os.path.exists` (line 144) reports the destination absent, so the gate
proceeds, and `file.save` (line 149) opens the destination path and
follows the link: the request reports the file stored as `etc_passwd`,
yet the bytes are created at `/etc/x` — outside the target directory and
outside the root (the final conjuncts state, in the code's own
containment vocabulary, that `/etc/x` is not under `/root`), while no
regular file appears at the destination, which still holds the symlink. -/
theorem c5_dangling_symlink_write_escape :
    secure_filename (str "../../etc/passwd") = str "etc_passwd" ∧
    path_exists exFs5 [str "root", str "etc_passwd"] = false ∧
    (uploadPost exFs5 [str "root"] (str "../../etc/passwd") "data").1 =
      UploadOutcome.stored (str "etc_passwd") ∧
    lookupNode (uploadPost exFs5 [str "root"] (str "../../etc/passwd") "data").2
      [str "etc", str "x"] = some (Node.file "data") ∧
    lookupNode (uploadPost exFs5 [str "root"] (str "../../etc/passwd") "data").2
      [str "root", str "etc_passwd"] = some (Node.symlink (str "/etc/x")) ∧
    segsToStr [str "etc", str "x"] = str "/etc/x" ∧
    isPre (str "/root" ++ ['/']) (str "/etc/x") = false :=
  ⟨rfl, rfl, rfl, rfl, rfl, rfl, rfl⟩

/-! ### Claim C6 -/

/-- C6: when an entry already exists at the destination, the upload
returns the conflict outcome and leaves the filesystem (with the
pre-existing file's contents) entirely unchanged. -/
theorem c6_conflict_no_overwrite :
    ∀ (fs : Fs) (cd : List (List Char)) (raw : List Char) (content : String),
      raw ≠ [] → secure_filename raw ≠ [] →
      path_exists fs (cd ++ [secure_filename raw]) = true →
      uploadPost fs cd raw content = (UploadOutcome.conflict, fs) ∧
      (uploadPost fs cd raw content).2 = fs := by
  intro fs cd raw content h1 h2 h3
  have h4 := uploadPost_conflict fs cd raw content h1 h2 h3
  exact ⟨h4, by rw [h4]⟩

/-- Witness for C6: uploading `report.txt` into a directory that already
holds `report.txt` conflicts and the filesystem is unchanged. -/
theorem c6_witness :
    path_exists exFs6 ([str "root"] ++ [secure_filename (str "report.txt")]) = true ∧
    uploadPost exFs6 [str "root"] (str "report.txt") "new" = (UploadOutcome.conflict, exFs6) :=
  ⟨rfl,
    (c6_conflict_no_overwrite exFs6 [str "root"] (str "report.txt") "new"
      (by decide) (by decide) rfl).1⟩

/-! ### Claim C7 -/

/-- C7: a download whose path fails the containment check and a download
of a genuinely absent (or non-regular) file produce the identical outward
`notFound` outcome — the containment rejection is never distinguishable
from a missing file. -/
theorem c7_notfound_indistinguishable :
    ∀ (fs : Fs) (root f1 f2 : List Char),
      safe_join fs root [f1] = none →
      (∀ r, safe_join fs root [f2] = some r → isfileStr fs r = false) →
      download_file fs root f1 = DownloadOutcome.notFound ∧
      download_file fs root f2 = DownloadOutcome.notFound ∧
      download_file fs root f1 = download_file fs root f2 := by
  intro fs root f1 f2 h1 h2
  have d1 : download_file fs root f1 = DownloadOutcome.notFound := by
    unfold download_file
    rw [h1]
  have d2 : download_file fs root f2 = DownloadOutcome.notFound := by
    unfold download_file
    cases hsj : safe_join fs root [f2] with
    | none => rfl
    | some r =>
      dsimp only
      rw [if_pos (h2 r hsj)]
  exact ⟨d1, d2, by rw [d1, d2]⟩

/-- Witness for C7: an escape attempt and a missing file, both answered
with the same `notFound`. -/
theorem c7_witness :
    safe_join exFs7 (str "/root") [str "../x"] = none ∧
    download_file exFs7 (str "/root") (str "../x") = DownloadOutcome.notFound ∧
    download_file exFs7 (str "/root") (str "missing.txt") = DownloadOutcome.notFound := by
  have hfun : ∀ r, safe_join exFs7 (str "/root") [str "missing.txt"] = some r →
      isfileStr exFs7 r = false := by
    intro r h
    rw [show safe_join exFs7 (str "/root") [str "missing.txt"] =
        some (str "/root/missing.txt") from rfl] at h
    injection h with h
    subst h
    rfl
  have h := c7_notfound_indistinguishable exFs7 (str "/root") (str "../x")
    (str "missing.txt") rfl hfun
  exact ⟨rfl, h.1, h.2.1⟩

/-! ### Claim C8 -/

/-- C8 counterexample: the hidden-entry check of `download_file` inspects
the client-supplied segments only, so in `exFs8` the request `link` —
whose own name is not hidden — follows the symlink to the hidden file
`/root/.secret` and serves it.  The claim's conclusion that a hidden file
is never served is therefore false as stated. -/
theorem c8_cex_hidden_served_via_symlink :
    download_file exFs8 (str "/root") (str "link") =
      DownloadOutcome.served [str "root", str ".secret"] ∧
    (pySplit (str "link")).any (fun part => _is_hidden part) = false ∧
    _is_hidden (str ".secret") = true :=
  ⟨rfl, rfl, rfl⟩

/-- C8 (amended): the download gate rejects, as `notFound`, any resolved
target that is not a regular file (directories are never served) and any
request in which some segment of the client-supplied relative portion is
hidden; a response is served only when the containment check passed, the
target is a regular file, and no supplied segment is hidden.  The hidden
predicate is applied to the supplied segments, not the resolved path, so
it does not by itself prevent a hidden file from being reached through a
symlink with an innocuous name. -/
theorem c8_download_checks :
    (∀ (fs : Fs) (root fn r : List Char),
        safe_join fs root [fn] = some r → isfileStr fs r = false →
        download_file fs root fn = DownloadOutcome.notFound) ∧
    (∀ (fs : Fs) (root fn : List Char),
        (pySplit fn).any (fun part => _is_hidden part) = true →
        download_file fs root fn = DownloadOutcome.notFound) ∧
    (∀ (fs : Fs) (root fn : List Char) (p : List (List Char)),
        download_file fs root fn = DownloadOutcome.served p →
        ∃ r, safe_join fs root [fn] = some r ∧ p = strToSegs r ∧
          isfileStr fs r = true ∧
          (pySplit fn).any (fun part => _is_hidden part) = false) := by
  refine ⟨?_, ?_, ?_⟩
  · intro fs root fn r h1 h2
    unfold download_file
    rw [h1]
    dsimp only
    rw [if_pos h2]
  · intro fs root fn h1
    unfold download_file
    cases hsj : safe_join fs root [fn] with
    | none => rfl
    | some r =>
      dsimp only
      by_cases hf : isfileStr fs r = false
      · rw [if_pos hf]
      · rw [if_neg hf, if_pos h1]
  · intro fs root fn p h
    unfold download_file at h
    cases hsj : safe_join fs root [fn] with
    | none => rw [hsj] at h; cases h
    | some r =>
      rw [hsj] at h
      dsimp only at h
      by_cases hf : isfileStr fs r = false
      · rw [if_pos hf] at h; cases h
      · rw [if_neg hf] at h
        by_cases hh : (pySplit fn).any (fun part => _is_hidden part) = true
        · rw [if_pos hh] at h; cases h
        · rw [if_neg hh] at h
          injection h with h
          refine ⟨r, rfl, h.symm, ?_, ?_⟩
          · cases hb : isfileStr fs r with
            | true => rfl
            | false => exact absurd hb hf
          · cases hb : (pySplit fn).any (fun part => _is_hidden part) with
            | true => exact absurd hb hh
            | false => rfl

/-- Witness for C8: a request whose relative portion contains a hidden
segment is answered with `notFound`. -/
theorem c8_witness :
    (pySplit (str ".hidden")).any (fun part => _is_hidden part) = true ∧
    download_file exFs7 (str "/root") (str ".hidden") = DownloadOutcome.notFound :=
  ⟨rfl, c8_download_checks.2.1 exFs7 (str "/root") (str ".hidden") rfl⟩

/-! ### Claim C9 -/

/-- A name is listed for `d` exactly when the filesystem records an
immediate child of `d` with that name. -/
theorem mem_listdir (fs : Fs) (d : List (List Char)) (n : List Char) :
    n ∈ listdir fs d ↔ ∃ nd, (d ++ [n], nd) ∈ fs := by
  unfold listdir
  rw [List.mem_filterMap]
  constructor
  · rintro ⟨e, he, hf⟩
    cases hl : e.1.getLast? with
    | none => rw [hl] at hf; cases hf
    | some m =>
      rw [hl] at hf
      dsimp only at hf
      by_cases hem : e.1 = d ++ [m]
      · rw [if_pos hem] at hf
        injection hf with hf
        subst hf
        refine ⟨e.2, ?_⟩
        rw [← hem]
        simpa using he
      · rw [if_neg hem] at hf
        cases hf
  · rintro ⟨nd, hmem⟩
    refine ⟨(d ++ [n], nd), hmem, ?_⟩
    show (match (d ++ [n]).getLast? with
      | some m => if (d ++ [n]) = d ++ [m] then some m else none
      | none => none) = some n
    rw [List.getLast?_concat]
    dsimp only
    rw [if_pos rfl]

/-- C9: for every filesystem and directory, the listing's two components
are sorted in the lexicographic order Python's `sorted` uses, the first
holds exactly the non-hidden children that stat as directories and the
second exactly the non-hidden children that stat as regular files; on the
example directory containing `.secret`, `a.txt` and `sub` this yields
dirs = `[sub]`, files = `[a.txt]`, with `.secret` excluded from both. -/
theorem c9_listing_partition :
    (∀ (fs : Fs) (d : List (List Char)),
      List.Sorted strLeP (listing fs d).1 ∧
      List.Sorted strLeP (listing fs d).2 ∧
      (∀ n, n ∈ (listing fs d).1 ↔
        ((∃ nd, (d ++ [n], nd) ∈ fs) ∧ isdirSegs fs (d ++ [n]) = true ∧
          _is_hidden n = false)) ∧
      (∀ n, n ∈ (listing fs d).2 ↔
        ((∃ nd, (d ++ [n], nd) ∈ fs) ∧ isfileSegs fs (d ++ [n]) = true ∧
          _is_hidden n = false))) ∧
    listing exFs9 [str "root"] = ([str "sub"], [str "a.txt"]) := by
  constructor
  · intro fs d
    refine ⟨List.sorted_insertionSort strLeP _, List.sorted_insertionSort strLeP _, ?_, ?_⟩
    · intro n
      show n ∈ List.insertionSort strLeP ((listdir fs d).filter
          (fun e => isdirSegs fs (d ++ [e]) && !_is_hidden e)) ↔ _
      rw [(List.perm_insertionSort strLeP _).mem_iff, List.mem_filter, mem_listdir]
      constructor
      · rintro ⟨h1, h2⟩
        simp only [Bool.and_eq_true] at h2
        refine ⟨h1, h2.1, ?_⟩
        cases hb : _is_hidden n with
        | false => rfl
        | true => rw [hb] at h2; simp at h2
      · rintro ⟨h1, h2, h3⟩
        exact ⟨h1, by simp [h2, h3]⟩
    · intro n
      show n ∈ List.insertionSort strLeP ((listdir fs d).filter
          (fun e => isfileSegs fs (d ++ [e]) && !_is_hidden e)) ↔ _
      rw [(List.perm_insertionSort strLeP _).mem_iff, List.mem_filter, mem_listdir]
      constructor
      · rintro ⟨h1, h2⟩
        simp only [Bool.and_eq_true] at h2
        refine ⟨h1, h2.1, ?_⟩
        cases hb : _is_hidden n with
        | false => rfl
        | true => rw [hb] at h2; simp at h2
      · rintro ⟨h1, h2, h3⟩
        exact ⟨h1, by simp [h2, h3]⟩
  · rfl
